import Mathlib

/-!
Shallow embedding of the analytics/query layer of the Spotify listening-history
project (`src/analitica_spotify/consultas.py`) and proofs of the specified
properties.

Modelling conventions:
* a pandas `DataFrame` row becomes a `PlayEvent`; the event table is a list of rows;
* `minutos_reproducidos` is a non-negative real in the source; it is modelled as `ℚ`;
* `fecha_reproduccion` (a timestamp) is modelled as a rational number of days
  since an arbitrary epoch, so `.dt.date` is `Int.floor` and a difference of one
  calendar day is an integer difference of `1`;
* pandas `groupby(k)[v].sum()` sorts the group keys ascending; it is modelled by
  `groupBySum`, which sorts the deduplicated keys and pairs each with its group sum;
* `sort_values` is modelled by `List.insertionSort` (the source never relies on
  stability of its sorts, and none of the proved statements do either);
* `round(x, 2)` is modelled by `round2`; numpy rounds halves to even while
  `round2` rounds halves up, a difference that none of the claims reach.
-/

namespace AnaliticaSpotify

/-- Row of the event table: one playback record together with the
timestamp-derived columns the loader provides (`hora`, `dia_semana`, `anio`, `mes`). -/
structure PlayEvent where
  artista : String
  cancion : String
  minutos_reproducidos : ℚ
  fecha_reproduccion : ℚ
  hora : ℕ
  dia_semana : String
  anio : ℕ
  mes : ℕ
deriving DecidableEq

/-- Event table: the list of playback rows for one user. -/
abbrev EventTable := List PlayEvent

/-- Total of the `minutos_reproducidos` column. -/
def sumMinutos (df : EventTable) : ℚ :=
  (df.map (·.minutos_reproducidos)).sum

/-- Calendar day of an event: `df["fecha_reproduccion"].dt.date`, as a day number. -/
def fecha (e : PlayEvent) : ℤ :=
  ⌊e.fecha_reproduccion⌋

/-- Lexicographic order on strings, the order pandas uses for string keys. -/
def strLe (a b : String) : Prop :=
  a.toList ≤ b.toList

instance : DecidableRel strLe :=
  fun a b => inferInstanceAs (Decidable (a.toList ≤ b.toList))

instance : IsTotal String strLe :=
  ⟨fun a b => le_total a.toList b.toList⟩

instance : IsTrans String strLe :=
  ⟨fun _ _ _ h h' => le_trans h h'⟩

/-- Order on `(anio, mes)` keys: chronological, i.e. lexicographic. -/
def leAnioMes (a b : ℕ × ℕ) : Prop :=
  a.1 < b.1 ∨ (a.1 = b.1 ∧ a.2 ≤ b.2)

instance : DecidableRel leAnioMes :=
  fun a b => inferInstanceAs (Decidable (a.1 < b.1 ∨ (a.1 = b.1 ∧ a.2 ≤ b.2)))

/-- Ascending order of key-sum pairs by the summed value (`sort_values()`). -/
def valLe {κ : Type} (a b : κ × ℚ) : Prop :=
  a.2 ≤ b.2

instance {κ : Type} : DecidableRel (valLe (κ := κ)) :=
  fun a b => inferInstanceAs (Decidable (a.2 ≤ b.2))

instance {κ : Type} : IsTotal (κ × ℚ) valLe :=
  ⟨fun a b => le_total a.2 b.2⟩

instance {κ : Type} : IsTrans (κ × ℚ) valLe :=
  ⟨fun _ _ _ h h' => le_trans h h'⟩

/-- Descending order of key-sum pairs by the summed value (`sort_values(ascending=False)`). -/
def valGe {κ : Type} (a b : κ × ℚ) : Prop :=
  b.2 ≤ a.2

instance {κ : Type} : DecidableRel (valGe (κ := κ)) :=
  fun a b => inferInstanceAs (Decidable (b.2 ≤ a.2))

instance {κ : Type} : IsTotal (κ × ℚ) valGe :=
  ⟨fun a b => le_total b.2 a.2⟩

instance {κ : Type} : IsTrans (κ × ℚ) valGe :=
  ⟨fun _ _ _ h h' => le_trans h' h⟩

/-- Sum of `minutos_reproducidos` over the rows whose key equals `k`
(one cell of a pandas `groupby(key)[minutos_reproducidos].sum()`). -/
def groupSum {κ : Type} [DecidableEq κ] (key : PlayEvent → κ) (df : EventTable) (k : κ) : ℚ :=
  sumMinutos (df.filter (fun e => key e = k))

/-- Model of `df.groupby(key)["minutos_reproducidos"].sum()`: the distinct keys in
ascending order (pandas sorts group keys), each paired with its group sum. -/
def groupBySum {κ : Type} [DecidableEq κ] (key : PlayEvent → κ) (r : κ → κ → Prop)
    [DecidableRel r] (df : EventTable) : List (κ × ℚ) :=
  (List.insertionSort r (df.map key).dedup).map (fun k => (k, groupSum key df k))

/-- Model of `top_artistas`: minutes per artist, sorted descending, first `n` rows. -/
def top_artistas (df : EventTable) (n : ℕ) : List (String × ℚ) :=
  (List.insertionSort valGe (groupBySum (·.artista) strLe df)).take n

/-- Model of `minutos_por_hora`: minutes per hour of day, sorted ascending
by the summed value (`sort_values()` sorts by value, not by hour). -/
def minutos_por_hora (df : EventTable) : List (ℕ × ℚ) :=
  List.insertionSort valLe (groupBySum (·.hora) (· ≤ ·) df)

/-- Fixed weekday order `orden_dias` used by `minutos_por_dia_semana`. -/
def orden_dias : List String :=
  ["Monday", "Tuesday", "Wednesday", "Thursday", "Friday", "Saturday", "Sunday"]

/-- Model of `minutos_por_dia_semana`: the weekday sums reindexed into the fixed
Monday-to-Sunday order; `reindex(...).dropna()` keeps a weekday only when it has a
group, so absent weekdays are dropped rather than reported as zero. -/
def minutos_por_dia_semana (df : EventTable) : List (String × ℚ) :=
  orden_dias.filterMap (fun d =>
    ((groupBySum (·.dia_semana) strLe df).lookup d).map (fun v => (d, v)))

/-- Model of `minutos_por_anio_mes`: minutes per `(anio, mes)`; the rows come out
of the groupby sorted by key and `sort_values(["anio", "mes"])` sorts them again
by the same key. -/
def minutos_por_anio_mes (df : EventTable) : List ((ℕ × ℕ) × ℚ) :=
  List.insertionSort (fun a b => leAnioMes a.1 b.1)
    (groupBySum (fun e => (e.anio, e.mes)) leAnioMes df)

instance : DecidableRel (fun (a b : (ℕ × ℕ) × ℚ) => leAnioMes a.1 b.1) :=
  fun a b => inferInstanceAs (Decidable (leAnioMes a.1 b.1))

/-- Model of `round(x, 2)`: round to two decimal places. -/
def round2 (q : ℚ) : ℚ :=
  (round (q * 100) : ℚ) / 100

/-- Model of `indice_obsesion`: percentage of all minutes concentrated in the top
`n` artists, `0.0` when the total is zero; `top_artistas` is exactly the source's
`groupby("artista").sum().sort_values(ascending=False).head(n)` pipeline. -/
def indice_obsesion (df : EventTable) (n : ℕ) : ℚ :=
  let total := sumMinutos df
  if total = 0 then 0
  else round2 (((top_artistas df n).map Prod.snd).sum / total * 100)

/-- Condition list of the `np.select` in `minutos_por_bloque_horario`; `hora` is a
natural number, so the lower bound of `between(0, 5)` is automatic. -/
def condiciones (h : ℕ) : List Bool :=
  [decide (h ≤ 5), decide (6 ≤ h ∧ h ≤ 11), decide (12 ≤ h ∧ h ≤ 17), decide (18 ≤ h ∧ h ≤ 23)]

/-- Bucket names of the `np.select`, in order. -/
def bloques : List String :=
  ["madrugada", "manana", "tarde", "noche"]

/-- Bucket of an hour: the `np.select(condiciones, bloques, default="desconocido")`,
which picks the first matching condition. -/
def bloque_horario (h : ℕ) : String :=
  if h ≤ 5 then "madrugada"
  else if 6 ≤ h ∧ h ≤ 11 then "manana"
  else if 12 ≤ h ∧ h ≤ 17 then "tarde"
  else if 18 ≤ h ∧ h ≤ 23 then "noche"
  else "desconocido"

/-- Model of `minutos_por_bloque_horario`: after `reindex(bloques, fill_value=0)`
the result has exactly the four buckets in order; a bucket absent from the groupby
gets `0`, which is also the group sum of its empty row set. -/
def minutos_por_bloque_horario (df : EventTable) : List (String × ℚ) :=
  bloques.map (fun b => (b, groupSum (fun e => bloque_horario e.hora) df b))

/-- Result row of `dia_mas_musical`. -/
structure DiaMasMusical where
  fechaTop : ℤ
  minutos : ℚ
  top_artista : String
  minutos_top_artista : ℚ
deriving DecidableEq

/-- Model of `dia_mas_musical`: daily totals (grouped by date, ascending), the row
selected by `idxmax` (the first row attaining the maximum, because the fold only
replaces the best on a strict increase), and that day's top artist, obtained by the
same descending-sort-and-head pipeline as `top_artistas` with `n = 1`. -/
def dia_mas_musical (df : EventTable) : Option DiaMasMusical :=
  let diarios := groupBySum fecha (· ≤ ·) df
  match diarios with
  | [] => none
  | r :: rs =>
    let fila_top := rs.foldl (fun b x => if b.2 < x.2 then x else b) r
    let en_dia := df.filter (fun e => fecha e = fila_top.1)
    match top_artistas en_dia 1 with
    | [] => none
    | a :: _ => some ⟨fila_top.1, fila_top.2, a.1, a.2⟩

/-- Result of `racha_musical_mas_larga`. -/
structure Racha where
  longitud_racha : ℕ
  fecha_inicio : Option ℤ
  fecha_fin : Option ℤ
deriving DecidableEq

/-- Scan loop of `racha_musical_mas_larga`: walks the qualifying dates from index 1,
extending the current run when the date difference is exactly one day and otherwise
closing it, updating the best run only on a strict improvement; the final comparison
of the loop tail is the `[]` case. Arguments after the date list: previous date,
current index `i`, `max_len`, `curr_len`, `start_idx`, `best_start_idx`. -/
def rachaLoop : List ℤ → ℤ → ℕ → ℕ → ℕ → ℕ → ℕ → ℕ × ℕ
  | [], _, _, maxLen, currLen, startIdx, bestStart =>
    if maxLen < currLen then (currLen, startIdx) else (maxLen, bestStart)
  | d :: rest, prev, i, maxLen, currLen, startIdx, bestStart =>
    if d - prev = 1 then rachaLoop rest d (i + 1) maxLen (currLen + 1) startIdx bestStart
    else if maxLen < currLen then rachaLoop rest d (i + 1) currLen 1 i startIdx
    else rachaLoop rest d (i + 1) maxLen 1 i bestStart

/-- Model of `racha_musical_mas_larga`: longest run of consecutive calendar days
whose daily total meets the threshold. Daily totals are grouped by date (ascending);
`activos` keeps the days with total `>= umbral`; an empty `activos` yields the
zero/absent result; otherwise the scan starts at index 1 with `max_len = curr_len = 1`
and the start and end dates are read off `fechas` at the best indices. -/
def racha_musical_mas_larga (df : EventTable) (umbral_minutos_dia : ℚ) : Racha :=
  let diarios := groupBySum fecha (· ≤ ·) df
  let activos := diarios.filter (fun r => umbral_minutos_dia ≤ r.2)
  match activos with
  | [] => ⟨0, none, none⟩
  | a :: resto =>
    let fechas := (a :: resto).map Prod.fst
    let mb := rachaLoop (fechas.drop 1) (fechas.getD 0 0) 1 1 1 0 0
    ⟨mb.1, some (fechas.getD mb.2 0), some (fechas.getD (mb.2 + mb.1 - 1) 0)⟩

/-- Result record of `resumen_variabilidad_diaria`. -/
structure ResumenVariabilidad where
  promedio_minutos_por_dia : ℚ
  desviacion_estandar : ℚ
  percentil_25 : ℚ
  percentil_50 : ℚ
  percentil_75 : ℚ
  dias_altos : ℕ
  dias_bajos : ℕ
  total_dias : ℕ
deriving DecidableEq

/-- Floor of the square root of a non-negative rational `a / b`, computed as
`⌊√(a·b)⌋ / b` with integer arithmetic. -/
def ratSqrtFloor (q : ℚ) : ℕ :=
  Nat.sqrt (q.num.toNat * q.den) / q.den

/-- Nearest integer to the square root of a non-negative rational (halves up):
`⌊√q + 1/2⌋ = ⌊(⌊√(4q)⌋ + 1) / 2⌋`. -/
def ratSqrtRound (q : ℚ) : ℕ :=
  (ratSqrtFloor (4 * q) + 1) / 2

/-- Square root rounded to two decimal places, `round(sqrt q, 2)`:
equal to `round(√(10000·q)) / 100`. -/
def sqrtRound2 (q : ℚ) : ℚ :=
  (ratSqrtRound (10000 * q) : ℚ) / 100

/-- Linear-interpolation quantile of a list of values, as pandas computes it:
virtual index `h = p·(n−1)` over the sorted values, interpolating between the
values at `⌊h⌋` and `⌈h⌉`. -/
def cuantil (xs : List ℚ) (p : ℚ) : ℚ :=
  let s := List.insertionSort (· ≤ ·) xs
  let h := p * ((s.length : ℚ) - 1)
  s.getD ⌊h⌋.toNat 0 + (h - ⌊h⌋) * (s.getD ⌈h⌉.toNat 0 - s.getD ⌊h⌋.toNat 0)

/-- Model of `resumen_variabilidad_diaria`. Empty daily rollup yields `none`
(the source returns `{}`). The sample standard deviation `√(Σ(x−mean)²/(n−1))` is
NaN in pandas when `n = 1` and the source turns a NaN into `0.0`; the `n ≤ 1`
branch encodes exactly that guard. High days have total `> 1.5·mean`, low days
`< 0.5·mean`. -/
def resumen_variabilidad_diaria (df : EventTable) : Option ResumenVariabilidad :=
  let diarios := groupBySum fecha (· ≤ ·) df
  match diarios with
  | [] => none
  | _ =>
    let vals := diarios.map Prod.snd
    let n : ℕ := vals.length
    let promedio := vals.sum / (n : ℚ)
    let desv :=
      if n ≤ 1 then 0
      else sqrtRound2 ((vals.map (fun x => (x - promedio) ^ 2)).sum / ((n : ℚ) - 1))
    some ⟨round2 promedio, desv,
      round2 (cuantil vals (1 / 4)), round2 (cuantil vals (1 / 2)), round2 (cuantil vals (3 / 4)),
      (vals.filter (fun v => 3 / 2 * promedio < v)).length,
      (vals.filter (fun v => v < 1 / 2 * promedio)).length, n⟩

/-- Row of the artist pivot of `artistas_emergentes_y_olvidados`:
minutes in each half of the period and their difference. -/
structure PivotRow where
  artista : String
  h1 : ℚ
  h2 : ℚ
  delta : ℚ
deriving DecidableEq

/-- Descending order of pivot rows by `delta`. -/
def deltaGe (r s : PivotRow) : Prop :=
  s.delta ≤ r.delta

instance : DecidableRel deltaGe :=
  fun r s => inferInstanceAs (Decidable (s.delta ≤ r.delta))

instance : IsTotal PivotRow deltaGe :=
  ⟨fun a b => le_total b.delta a.delta⟩

instance : IsTrans PivotRow deltaGe :=
  ⟨fun _ _ _ h h' => le_trans h' h⟩

/-- Ascending order of pivot rows by `delta`. -/
def deltaLe (r s : PivotRow) : Prop :=
  r.delta ≤ s.delta

instance : DecidableRel deltaLe :=
  fun r s => inferInstanceAs (Decidable (r.delta ≤ s.delta))

instance : IsTotal PivotRow deltaLe :=
  ⟨fun a b => le_total a.delta b.delta⟩

instance : IsTrans PivotRow deltaLe :=
  ⟨fun _ _ _ h h' => le_trans h h'⟩

/-- Artist pivot of `artistas_emergentes_y_olvidados`: one row per artist (the
pivot index is sorted), `h1` the minutes of events with timestamp `≤ corte`
(labelled `H1` by the `np.where`), `h2` the rest; an artist absent from a half
contributes an empty filter, whose sum is the `fillna(0)` value `0`;
`delta = H2 − H1`. -/
def pivotRows (df : EventTable) (corte : ℚ) : List PivotRow :=
  (List.insertionSort strLe (df.map (·.artista)).dedup).map (fun a =>
    ⟨a, sumMinutos (df.filter (fun e => e.artista = a ∧ e.fecha_reproduccion ≤ corte)),
        sumMinutos (df.filter (fun e => e.artista = a ∧ ¬ e.fecha_reproduccion ≤ corte)),
        sumMinutos (df.filter (fun e => e.artista = a ∧ ¬ e.fecha_reproduccion ≤ corte)) -
          sumMinutos (df.filter (fun e => e.artista = a ∧ e.fecha_reproduccion ≤ corte))⟩)

/-- Model of `artistas_emergentes_y_olvidados`: on an empty table (`min`/`max`
undefined) two empty lists; otherwise the cut is the temporal midpoint
`fecha_min + (fecha_max − fecha_min)/2` and the two outputs are the first `top_n`
pivot rows by descending and by ascending `delta`. -/
def artistas_emergentes_y_olvidados (df : EventTable) (top_n : ℕ) :
    List PivotRow × List PivotRow :=
  match (df.map (·.fecha_reproduccion)).min?, (df.map (·.fecha_reproduccion)).max? with
  | some fecha_min, some fecha_max =>
    let corte := fecha_min + (fecha_max - fecha_min) / 2
    let pivot := pivotRows df corte
    ((List.insertionSort deltaGe pivot).take top_n,
     (List.insertionSort deltaLe pivot).take top_n)
  | _, _ => ([], [])

/-! Basic lemmas about sums and `groupBySum`. -/

theorem sumMinutos_nil : sumMinutos [] = 0 := rfl

theorem sumMinutos_cons (e : PlayEvent) (df : EventTable) :
    sumMinutos (e :: df) = e.minutos_reproducidos + sumMinutos df := by
  simp [sumMinutos]

theorem sumMinutos_nonneg {df : EventTable}
    (h : ∀ e ∈ df, 0 ≤ e.minutos_reproducidos) : 0 ≤ sumMinutos df := by
  refine List.sum_nonneg ?_
  intro x hx
  rcases List.mem_map.mp hx with ⟨e, he, rfl⟩
  exact h e he

theorem groupSum_cons {κ : Type} [DecidableEq κ] (key : PlayEvent → κ)
    (e : PlayEvent) (df : EventTable) (k : κ) :
    groupSum key (e :: df) k =
      (if key e = k then e.minutos_reproducidos else 0) + groupSum key df k := by
  by_cases h : key e = k <;> simp [groupSum, List.filter_cons, h, sumMinutos_cons]

theorem groupSum_nonneg {κ : Type} [DecidableEq κ] (key : PlayEvent → κ)
    {df : EventTable} (h : ∀ e ∈ df, 0 ≤ e.minutos_reproducidos) (k : κ) :
    0 ≤ groupSum key df k := by
  refine sumMinutos_nonneg ?_
  intro e he
  exact h e (List.mem_of_mem_filter he)

theorem sum_map_ite_eq {κ : Type} [DecidableEq κ] (ks : List κ) (k0 : κ) (x : ℚ)
    (hnd : ks.Nodup) (hm : k0 ∈ ks) :
    (ks.map (fun k => if k0 = k then x else 0)).sum = x := by
  induction ks with
  | nil => cases hm
  | cons a ks ih =>
    rcases List.nodup_cons.mp hnd with ⟨ha, hnd'⟩
    rcases List.mem_cons.mp hm with h | h
    · subst h
      have hz : ∀ y ∈ ks.map (fun k => if k0 = k then x else 0), y = 0 := by
        intro y hy
        rcases List.mem_map.mp hy with ⟨k, hk, rfl⟩
        refine if_neg ?_
        intro he
        rw [he] at ha
        exact ha hk
      simp [List.sum_eq_zero hz]
    · have hne : k0 ≠ a := fun he => ha (he ▸ h)
      simp [hne, ih hnd' h]

theorem sum_groupSum {κ : Type} [DecidableEq κ] (key : PlayEvent → κ)
    (df : EventTable) (ks : List κ) (hnd : ks.Nodup) (hcov : ∀ e ∈ df, key e ∈ ks) :
    (ks.map (fun k => groupSum key df k)).sum = sumMinutos df := by
  induction df with
  | nil => simp [groupSum, sumMinutos]
  | cons e df ih =>
    have hcov' : ∀ x ∈ df, key x ∈ ks := fun x hx => hcov x (List.mem_cons_of_mem _ hx)
    have hme : key e ∈ ks := hcov e (List.mem_cons_self _ _)
    have hsplit : (ks.map (fun k => groupSum key (e :: df) k)).sum =
        (ks.map (fun k => if key e = k then e.minutos_reproducidos else 0)).sum +
        (ks.map (fun k => groupSum key df k)).sum := by
      rw [← List.sum_map_add]
      congr 1
      exact List.map_congr_left (fun k _ => groupSum_cons key e df k)
    rw [hsplit, sum_map_ite_eq ks (key e) _ hnd hme, ih hcov', sumMinutos_cons]

theorem groupBySum_map_fst {κ : Type} [DecidableEq κ] (key : PlayEvent → κ)
    (r : κ → κ → Prop) [DecidableRel r] (df : EventTable) :
    (groupBySum key r df).map Prod.fst = List.insertionSort r (df.map key).dedup := by
  simp [groupBySum, List.map_map, Function.comp_def]

theorem mem_groupBySum {κ : Type} [DecidableEq κ] {key : PlayEvent → κ}
    {r : κ → κ → Prop} [DecidableRel r] {df : EventTable} {p : κ × ℚ}
    (hp : p ∈ groupBySum key r df) :
    p.1 ∈ (df.map key).dedup ∧ p.2 = groupSum key df p.1 := by
  rcases List.mem_map.mp hp with ⟨k, hk, rfl⟩
  exact ⟨(List.perm_insertionSort r _).mem_iff.mp hk, rfl⟩

theorem mem_groupBySum_of_key {κ : Type} [DecidableEq κ] {key : PlayEvent → κ}
    (r : κ → κ → Prop) [DecidableRel r] {df : EventTable} {k : κ}
    (hk : k ∈ (df.map key).dedup) :
    (k, groupSum key df k) ∈ groupBySum key r df := by
  exact List.mem_map.mpr ⟨k, (List.perm_insertionSort r _).mem_iff.mpr hk, rfl⟩

theorem groupBySum_keys_nodup {κ : Type} [DecidableEq κ] (key : PlayEvent → κ)
    (r : κ → κ → Prop) [DecidableRel r] (df : EventTable) :
    ((groupBySum key r df).map Prod.fst).Nodup := by
  rw [groupBySum_map_fst]
  exact (List.perm_insertionSort r _).nodup_iff.mpr (List.nodup_dedup _)

theorem groupBySum_sum_snd {κ : Type} [DecidableEq κ] (key : PlayEvent → κ)
    (r : κ → κ → Prop) [DecidableRel r] (df : EventTable) :
    ((groupBySum key r df).map Prod.snd).sum = sumMinutos df := by
  have hmm : (groupBySum key r df).map Prod.snd =
      (List.insertionSort r (df.map key).dedup).map (fun k => groupSum key df k) := by
    simp [groupBySum, List.map_map, Function.comp_def]
  have hperm : List.Perm
      ((List.insertionSort r (df.map key).dedup).map (fun k => groupSum key df k))
      (((df.map key).dedup).map (fun k => groupSum key df k)) :=
    (List.perm_insertionSort r _).map _
  rw [hmm, hperm.sum_eq]
  exact sum_groupSum key df _ (List.nodup_dedup _)
    (fun e he => List.mem_dedup.mpr (List.mem_map_of_mem _ he))

theorem groupBySum_sorted_keys {κ : Type} [DecidableEq κ] (key : PlayEvent → κ)
    (r : κ → κ → Prop) [DecidableRel r] [IsTotal κ r] [IsTrans κ r] (df : EventTable) :
    ((groupBySum key r df).map Prod.fst).Sorted r := by
  rw [groupBySum_map_fst]
  exact List.sorted_insertionSort r _

theorem groupBySum_keys_strict {κ : Type} [LinearOrder κ] (key : PlayEvent → κ)
    (df : EventTable) :
    ((groupBySum key (· ≤ ·) df).map Prod.fst).Sorted (· < ·) :=
  (groupBySum_sorted_keys key (· ≤ ·) df).lt_of_le (groupBySum_keys_nodup key (· ≤ ·) df)

theorem groupBySum_pairwise_keys {κ : Type} [LinearOrder κ] (key : PlayEvent → κ)
    (df : EventTable) :
    (groupBySum key (· ≤ ·) df).Pairwise (fun a b => a.1 < b.1) := by
  have h := groupBySum_keys_strict key df
  rw [List.Sorted, List.pairwise_map] at h
  exact h

/-! Lemmas about sums of prefixes of non-negative lists, and about `round2`. -/

theorem sum_take_nonneg (l : List ℚ) (h : ∀ x ∈ l, 0 ≤ x) (n : ℕ) :
    0 ≤ (l.take n).sum :=
  List.sum_nonneg (fun x hx => h x (List.mem_of_mem_take hx))

theorem sum_take_le_sum (l : List ℚ) (h : ∀ x ∈ l, 0 ≤ x) (n : ℕ) :
    (l.take n).sum ≤ l.sum := by
  conv_rhs => rw [← List.take_append_drop n l]
  rw [List.sum_append]
  have : 0 ≤ (l.drop n).sum :=
    List.sum_nonneg (fun x hx => h x (List.mem_of_mem_drop hx))
  linarith

theorem sum_take_mono (l : List ℚ) (h : ∀ x ∈ l, 0 ≤ x) {n m : ℕ} (hnm : n ≤ m) :
    (l.take n).sum ≤ (l.take m).sum := by
  obtain ⟨k, rfl⟩ := Nat.le.dest hnm
  rw [List.take_add, List.sum_append]
  have : 0 ≤ ((l.drop n).take k).sum :=
    List.sum_nonneg (fun x hx => h x (List.mem_of_mem_drop (List.mem_of_mem_take hx)))
  linarith

theorem round2_mono {a b : ℚ} (h : a ≤ b) : round2 a ≤ round2 b := by
  unfold round2
  have h100 : a * 100 ≤ b * 100 := by linarith
  have : round (a * 100) ≤ round (b * 100) := by
    rw [round_eq, round_eq]
    exact Int.floor_le_floor (by linarith)
  have hc : ((round (a * 100) : ℤ) : ℚ) ≤ ((round (b * 100) : ℤ) : ℚ) := by
    exact_mod_cast this
  linarith

theorem round2_zero : round2 0 = 0 := by
  simp [round2]

theorem round2_hundred : round2 100 = 100 := by
  have h1 : ((100 : ℚ) * 100) = ((10000 : ℤ) : ℚ) := by norm_num
  have h2 : round ((100 : ℚ) * 100) = 10000 := by rw [h1, round_intCast]
  rw [round2, h2]
  norm_num

/-! Facts feeding the obsession-index claim. -/

theorem top_artistas_eq_take (df : EventTable) (n : ℕ) :
    (top_artistas df n).map Prod.snd =
      ((List.insertionSort valGe (groupBySum (·.artista) strLe df)).map Prod.snd).take n := by
  rw [top_artistas, List.map_take]

theorem sorted_snd_nonneg (df : EventTable)
    (h : ∀ e ∈ df, 0 ≤ e.minutos_reproducidos) :
    ∀ x ∈ (List.insertionSort valGe (groupBySum (·.artista) strLe df)).map Prod.snd, 0 ≤ x := by
  intro x hx
  rcases List.mem_map.mp hx with ⟨p, hp, rfl⟩
  have hp' : p ∈ groupBySum (·.artista) strLe df :=
    (List.perm_insertionSort valGe _).mem_iff.mp hp
  rw [(mem_groupBySum hp').2]
  exact groupSum_nonneg _ h _

theorem sorted_snd_sum (df : EventTable) :
    ((List.insertionSort valGe (groupBySum (·.artista) strLe df)).map Prod.snd).sum =
      sumMinutos df := by
  have hperm : List.Perm
      ((List.insertionSort valGe (groupBySum (·.artista) strLe df)).map Prod.snd)
      ((groupBySum (·.artista) strLe df).map Prod.snd) :=
    (List.perm_insertionSort valGe _).map _
  rw [hperm.sum_eq, groupBySum_sum_snd]

/-- C2: for every event table with non-negative `minutos_reproducidos` and all
ranks `n ≤ m`, `indice_obsesion` lies in `[0, 100]`, is monotone from rank `n` to
rank `m` (even after rounding to two decimals), and is exactly `0` when the
table's total minutes are `0` — the guard, not a division, produces that value. -/
theorem claim_C2_indice_obsesion (df : EventTable)
    (h : ∀ e ∈ df, 0 ≤ e.minutos_reproducidos) (n m : ℕ) (hnm : n ≤ m) :
    0 ≤ indice_obsesion df n ∧ indice_obsesion df n ≤ 100 ∧
    indice_obsesion df n ≤ indice_obsesion df m ∧
    (sumMinutos df = 0 → indice_obsesion df n = 0) := by
  by_cases ht : sumMinutos df = 0
  · simp [indice_obsesion, ht]
  · have htpos : 0 < sumMinutos df :=
      lt_of_le_of_ne (sumMinutos_nonneg h) (Ne.symm ht)
    set vs := (List.insertionSort valGe (groupBySum (·.artista) strLe df)).map Prod.snd with hvs
    have hnn : ∀ x ∈ vs, 0 ≤ x := sorted_snd_nonneg df h
    have hsum : vs.sum = sumMinutos df := sorted_snd_sum df
    have hSn0 : 0 ≤ (vs.take n).sum := sum_take_nonneg vs hnn n
    have hSnm : (vs.take n).sum ≤ (vs.take m).sum := sum_take_mono vs hnn hnm
    have hSnT : (vs.take n).sum ≤ sumMinutos df := hsum ▸ sum_take_le_sum vs hnn n
    have hSmT : (vs.take m).sum ≤ sumMinutos df := hsum ▸ sum_take_le_sum vs hnn m
    have heval : ∀ k : ℕ, indice_obsesion df k =
        round2 ((vs.take k).sum / sumMinutos df * 100) := by
      intro k
      rw [indice_obsesion]
      simp only [ht, if_false]
      rw [top_artistas_eq_take]
    have harg_nonneg : 0 ≤ (vs.take n).sum / sumMinutos df * 100 := by positivity
    have harg_le : (vs.take n).sum / sumMinutos df * 100 ≤ 100 := by
      have h1 : (vs.take n).sum / sumMinutos df ≤ 1 :=
        (div_le_one htpos).mpr hSnT
      linarith
    have harg_mono : (vs.take n).sum / sumMinutos df * 100 ≤
        (vs.take m).sum / sumMinutos df * 100 := by
      gcongr
    refine ⟨?_, ?_, ?_, fun habs => absurd habs ht⟩
    · rw [heval n]
      calc (0 : ℚ) = round2 0 := (round2_zero).symm
        _ ≤ _ := round2_mono harg_nonneg
    · rw [heval n]
      calc round2 ((vs.take n).sum / sumMinutos df * 100) ≤ round2 100 :=
            round2_mono harg_le
        _ = 100 := round2_hundred
    · rw [heval n, heval m]
      exact round2_mono harg_mono

/-- Shorthand to build one concrete playback row for the witness tables. -/
def ev (a : String) (m ts : ℚ) (h : ℕ) (d : String) : PlayEvent :=
  ⟨a, "c", m, ts, h, d, 2024, 1⟩

/-- Concrete one-row table used by several witnesses. -/
def dfUno : EventTable :=
  [ev "a" 40 0 13 "Monday"]

theorem claim_C2_witness :
    0 ≤ indice_obsesion dfUno 1 ∧ indice_obsesion dfUno 1 ≤ 100 ∧
    indice_obsesion dfUno 1 ≤ indice_obsesion dfUno 2 ∧
    (sumMinutos dfUno = 0 → indice_obsesion dfUno 1 = 0) := by
  refine claim_C2_indice_obsesion dfUno ?_ 1 2 (by norm_num)
  intro e he
  simp only [dfUno, List.mem_singleton] at he
  subst he
  norm_num [ev]

/-- C4: `minutos_por_bloque_horario` always returns exactly the four buckets, in
order; every hour below 24 satisfies exactly one of the `np.select` conditions
and is never sent to the `"desconocido"` default; and a bucket with no events
appears with total `0` rather than being dropped. -/
theorem claim_C4_minutos_por_bloque_horario (df : EventTable) :
    (minutos_por_bloque_horario df).map Prod.fst = bloques ∧
    (∀ h : ℕ, h < 24 → (condiciones h).count true = 1 ∧ bloque_horario h ≠ "desconocido") ∧
    (∀ b ∈ bloques, df.filter (fun e => bloque_horario e.hora = b) = [] →
      (b, (0 : ℚ)) ∈ minutos_por_bloque_horario df) := by
  refine ⟨?_, by decide, ?_⟩
  · simp [minutos_por_bloque_horario, List.map_map, Function.comp_def]
  · intro b hb hfil
    have hz : groupSum (fun e => bloque_horario e.hora) df b = 0 := by
      rw [groupSum, hfil, sumMinutos_nil]
    refine List.mem_map.mpr ⟨b, hb, ?_⟩
    rw [hz]

theorem claim_C4_witness :
    (minutos_por_bloque_horario dfUno).map Prod.fst = bloques ∧
    ((condiciones 3).count true = 1 ∧ bloque_horario 3 ≠ "desconocido") ∧
    ("madrugada", (0 : ℚ)) ∈ minutos_por_bloque_horario dfUno :=
  ⟨(claim_C4_minutos_por_bloque_horario dfUno).1,
   (claim_C4_minutos_por_bloque_horario dfUno).2.1 3 (by norm_num),
   (claim_C4_minutos_por_bloque_horario dfUno).2.2 "madrugada" (by decide) (by decide)⟩

/-- C5: when no day qualifies — in particular on the empty table — the streak is
length `0` with both dates absent; the function is total, so it never fails. -/
theorem claim_C5_racha_vacia (df : EventTable) (u : ℚ) :
    ((groupBySum fecha (· ≤ ·) df).filter (fun r => u ≤ r.2) = [] →
      racha_musical_mas_larga df u = ⟨0, none, none⟩) ∧
    (df = [] → racha_musical_mas_larga df u = ⟨0, none, none⟩) := by
  constructor
  · intro h
    simp only [racha_musical_mas_larga, h]
  · intro h
    subst h
    rfl

theorem claim_C5_witness :
    racha_musical_mas_larga [] 10 = ⟨0, none, none⟩ ∧
    racha_musical_mas_larga [ev "a" 3 0 13 "Monday"] 10 = ⟨0, none, none⟩ := by
  constructor
  · exact (claim_C5_racha_vacia [] 10).2 rfl
  · refine (claim_C5_racha_vacia [ev "a" 3 0 13 "Monday"] 10).1 ?_
    norm_num [groupBySum, groupSum, sumMinutos, fecha, ev, List.insertionSort,
      List.orderedInsert, List.filter_cons]

/-- C7: for a non-empty table and any rank at least the number of distinct
artists, the year-month totals and the top-artist totals add up to the same
value, the table's total minutes. -/
theorem claim_C7_roundtrip (df : EventTable) (_hne : df ≠ []) (n : ℕ)
    (hn : (df.map (·.artista)).dedup.length ≤ n) :
    ((minutos_por_anio_mes df).map Prod.snd).sum =
      ((top_artistas df n).map Prod.snd).sum ∧
    ((top_artistas df n).map Prod.snd).sum = sumMinutos df := by
  have htop : ((top_artistas df n).map Prod.snd).sum = sumMinutos df := by
    have hlen : (List.insertionSort valGe (groupBySum (·.artista) strLe df)).length ≤ n := by
      rw [(List.perm_insertionSort valGe _).length_eq]
      calc (groupBySum (·.artista) strLe df).length
          = ((groupBySum (·.artista) strLe df).map Prod.fst).length :=
            (List.length_map _ _).symm
        _ = (df.map (·.artista)).dedup.length := by
            rw [groupBySum_map_fst, (List.perm_insertionSort strLe _).length_eq]
        _ ≤ n := hn
    rw [top_artistas, List.take_of_length_le hlen, ← sorted_snd_sum df]
  constructor
  · rw [htop]
    have hperm : List.Perm
        ((minutos_por_anio_mes df).map Prod.snd)
        ((groupBySum (fun e => (e.anio, e.mes)) leAnioMes df).map Prod.snd) :=
      (List.perm_insertionSort _ _).map _
    rw [hperm.sum_eq, groupBySum_sum_snd]
  · exact htop

theorem claim_C7_witness :
    ((minutos_por_anio_mes dfUno).map Prod.snd).sum =
      ((top_artistas dfUno 3).map Prod.snd).sum ∧
    ((top_artistas dfUno 3).map Prod.snd).sum = sumMinutos dfUno :=
  claim_C7_roundtrip dfUno (by simp [dfUno]) 3 (by decide)

/-- C8: `minutos_por_hora` has one row per hour present in the table (a
permutation of the distinct hours — absent hours are omitted), its rows are
ordered ascending by the summed minutes, and each row carries that hour's sum. -/
theorem claim_C8_minutos_por_hora (df : EventTable) :
    List.Perm ((minutos_por_hora df).map Prod.fst) (df.map (·.hora)).dedup ∧
    ((minutos_por_hora df).map Prod.snd).Pairwise (· ≤ ·) ∧
    (∀ p ∈ minutos_por_hora df, p.2 = groupSum (·.hora) df p.1) := by
  refine ⟨?_, ?_, ?_⟩
  · have h1 : List.Perm ((minutos_por_hora df).map Prod.fst)
        ((groupBySum (·.hora) (· ≤ ·) df).map Prod.fst) :=
      (List.perm_insertionSort valLe _).map _
    have h2 : List.Perm ((groupBySum (·.hora) (· ≤ ·) df).map Prod.fst)
        (df.map (·.hora)).dedup := by
      rw [groupBySum_map_fst]
      exact List.perm_insertionSort _ _
    exact h1.trans h2
  · have hs : (minutos_por_hora df).Pairwise valLe :=
      List.sorted_insertionSort valLe _
    rw [List.pairwise_map]
    exact hs
  · intro p hp
    have hp' : p ∈ groupBySum (·.hora) (· ≤ ·) df :=
      (List.perm_insertionSort valLe _).mem_iff.mp hp
    exact (mem_groupBySum hp').2

theorem claim_C8_witness :
    List.Perm ((minutos_por_hora dfUno).map Prod.fst) (dfUno.map (·.hora)).dedup ∧
    ((minutos_por_hora dfUno).map Prod.snd).Pairwise (· ≤ ·) :=
  ⟨(claim_C8_minutos_por_hora dfUno).1, (claim_C8_minutos_por_hora dfUno).2.1⟩

/-! Lemmas about `List.lookup` over a key-to-pair map, feeding the weekday claim. -/

theorem lookup_map_pair {κ : Type} [DecidableEq κ] [BEq κ] [LawfulBEq κ]
    (ks : List κ) (f : κ → ℚ) (k : κ) :
    (ks.map (fun x => (x, f x))).lookup k =
      if k ∈ ks then some (f k) else none := by
  induction ks with
  | nil => rfl
  | cons a ks ih =>
    by_cases h : k = a
    · subst h
      simp [List.lookup]
    · have hbeq : (k == a) = false := by simp [h]
      simp [List.lookup, hbeq, ih, h]

theorem filterMap_if_map_fst {α β : Type} (ds : List α) (P : α → Prop) [DecidablePred P]
    (g : α → β) :
    (ds.filterMap (fun d => if P d then some (d, g d) else none)).map Prod.fst =
      ds.filter (fun d => decide (P d)) := by
  induction ds with
  | nil => rfl
  | cons a ds ih =>
    by_cases h : P a <;> simp [List.filterMap_cons, List.filter_cons, h, ih]

theorem mem_filterMap_if {α β : Type} {ds : List α} {P : α → Prop} [DecidablePred P]
    {g : α → β} {p : α × β}
    (hp : p ∈ ds.filterMap (fun d => if P d then some (d, g d) else none)) :
    p.2 = g p.1 := by
  rcases List.mem_filterMap.mp hp with ⟨d, _, hsome⟩
  by_cases h : P d
  · rw [if_pos h] at hsome
    rw [← Option.some.inj hsome]
  · rw [if_neg h] at hsome
    simp at hsome

theorem minutos_por_dia_semana_eq (df : EventTable) :
    minutos_por_dia_semana df =
      orden_dias.filterMap (fun d =>
        if d ∈ df.map (·.dia_semana) then some (d, groupSum (·.dia_semana) df d)
        else none) := by
  rw [minutos_por_dia_semana]
  congr 1
  funext d
  have hiff : d ∈ List.insertionSort strLe (df.map (·.dia_semana)).dedup ↔
      d ∈ df.map (·.dia_semana) := by
    rw [(List.perm_insertionSort strLe _).mem_iff, List.mem_dedup]
  rw [groupBySum, lookup_map_pair]
  by_cases h : d ∈ df.map (·.dia_semana)
  · rw [if_pos (hiff.mpr h), if_pos h]
    rfl
  · rw [if_neg (fun hc => h (hiff.mp hc)), if_neg h]
    rfl

/-- C9: `minutos_por_dia_semana` lists the weekday sums in the fixed
Monday-to-Sunday order, restricted to the weekdays actually present in the table
(absent weekdays are dropped, not zero-filled), and each row carries its
weekday's summed minutes. -/
theorem claim_C9_minutos_por_dia_semana (df : EventTable) :
    (minutos_por_dia_semana df).map Prod.fst =
      orden_dias.filter (fun d => d ∈ df.map (·.dia_semana)) ∧
    (∀ p ∈ minutos_por_dia_semana df, p.2 = groupSum (·.dia_semana) df p.1) := by
  constructor
  · rw [minutos_por_dia_semana_eq, filterMap_if_map_fst]
  · intro p hp
    rw [minutos_por_dia_semana_eq] at hp
    exact mem_filterMap_if hp

theorem claim_C9_witness :
    (minutos_por_dia_semana dfUno).map Prod.fst =
      orden_dias.filter (fun d => d ∈ dfUno.map (·.dia_semana)) ∧
    ("Monday", (40 : ℚ)).2 = groupSum (·.dia_semana) dfUno ("Monday", (40 : ℚ)).1 := by
  refine ⟨(claim_C9_minutos_por_dia_semana dfUno).1, ?_⟩
  refine (claim_C9_minutos_por_dia_semana dfUno).2 ("Monday", 40) ?_
  rw [minutos_por_dia_semana_eq]
  norm_num [orden_dias, dfUno, ev, groupSum, sumMinutos, List.filterMap_cons]

/-! Claim C3: half-period delta ranking. -/

/-- C3 (amended): with the cut at the temporal midpoint, a pivot-row artist all
of whose events lie strictly after the cut (present only in `H2`) has `delta`
equal to their total minutes; one all of whose events lie at or before the cut
(present only in `H1`) has `delta` equal to minus their total minutes; the
emerging list is ordered by non-increasing `delta` and the fading list by
non-decreasing `delta` (non-strictly: adjacent rows may tie). -/
theorem claim_C3_emergentes (df : EventTable) (top_n : ℕ) (fmin fmax : ℚ)
    (hmin : (df.map (·.fecha_reproduccion)).min? = some fmin)
    (hmax : (df.map (·.fecha_reproduccion)).max? = some fmax) :
    (∀ r ∈ pivotRows df (fmin + (fmax - fmin) / 2),
      ((∀ e ∈ df, e.artista = r.artista →
          ¬ e.fecha_reproduccion ≤ fmin + (fmax - fmin) / 2) →
        r.delta = sumMinutos (df.filter (fun e => e.artista = r.artista))) ∧
      ((∀ e ∈ df, e.artista = r.artista →
          e.fecha_reproduccion ≤ fmin + (fmax - fmin) / 2) →
        r.delta = -sumMinutos (df.filter (fun e => e.artista = r.artista)))) ∧
    ((artistas_emergentes_y_olvidados df top_n).1.map (·.delta)).Pairwise
      (fun x y => y ≤ x) ∧
    ((artistas_emergentes_y_olvidados df top_n).2.map (·.delta)).Pairwise
      (fun x y => x ≤ y) := by
  set corte := fmin + (fmax - fmin) / 2 with hc
  refine ⟨?_, ?_, ?_⟩
  · intro r hr
    rcases List.mem_map.mp hr with ⟨a, _, rfl⟩
    constructor
    · intro hH2
      have hh1 : df.filter
          (fun e => e.artista = a ∧ e.fecha_reproduccion ≤ corte) = [] := by
        rw [List.filter_eq_nil_iff]
        intro e he
        simp only [decide_eq_true_eq, not_and]
        intro hea
        exact hH2 e he hea
      have hh2 : df.filter (fun e => e.artista = a ∧ ¬ e.fecha_reproduccion ≤ corte) =
          df.filter (fun e => e.artista = a) := by
        refine List.filter_congr ?_
        intro e he
        by_cases hea : e.artista = a
        · simp [hea, hH2 e he hea]
        · simp [hea]
      simp only [PivotRow.delta]
      rw [hh1, hh2, sumMinutos_nil, sub_zero]
    · intro hH1
      have hh2 : df.filter
          (fun e => e.artista = a ∧ ¬ e.fecha_reproduccion ≤ corte) = [] := by
        rw [List.filter_eq_nil_iff]
        intro e he
        simp only [decide_eq_true_eq, not_and, not_not]
        intro hea
        exact hH1 e he hea
      have hh1 : df.filter (fun e => e.artista = a ∧ e.fecha_reproduccion ≤ corte) =
          df.filter (fun e => e.artista = a) := by
        refine List.filter_congr ?_
        intro e he
        by_cases hea : e.artista = a
        · simp [hea, hH1 e he hea]
        · simp [hea]
      simp only [PivotRow.delta]
      rw [hh1, hh2, sumMinutos_nil, zero_sub]
  · rw [artistas_emergentes_y_olvidados, hmin, hmax]
    have hs : (List.insertionSort deltaGe (pivotRows df corte)).Pairwise deltaGe :=
      List.sorted_insertionSort deltaGe _
    have ht : ((List.insertionSort deltaGe (pivotRows df corte)).take top_n).Pairwise
        deltaGe :=
      List.Pairwise.sublist (List.take_sublist _ _) hs
    rw [List.pairwise_map]
    exact ht
  · rw [artistas_emergentes_y_olvidados, hmin, hmax]
    have hs : (List.insertionSort deltaLe (pivotRows df corte)).Pairwise deltaLe :=
      List.sorted_insertionSort deltaLe _
    have ht : ((List.insertionSort deltaLe (pivotRows df corte)).take top_n).Pairwise
        deltaLe :=
      List.Pairwise.sublist (List.take_sublist _ _) hs
    rw [List.pairwise_map]
    exact ht

/-- Concrete table for the C3 counterexample: artist `"a"` plays 1 minute at the
earliest timestamp (first half), artists `"b"` and `"c"` each play 5 minutes at
the latest timestamp (second half), so both get `delta = 5`. -/
def dfC3 : EventTable :=
  [ev "a" 1 0 13 "Monday", ev "b" 5 2 13 "Monday", ev "c" 5 2 13 "Monday"]

theorem claim_C3_counterexample :
    ¬ (((artistas_emergentes_y_olvidados dfC3 10).1.map (·.delta)).Pairwise
        (fun x y => y < x)) := by
  have hmin : (dfC3.map (·.fecha_reproduccion)).min? = some 0 := by decide
  have hmax : (dfC3.map (·.fecha_reproduccion)).max? = some 2 := by decide
  have hsort : List.insertionSort strLe (dfC3.map (·.artista)).dedup = ["a", "b", "c"] := by
    decide
  have hcorte : (0 : ℚ) + (2 - 0) / 2 = 1 := by norm_num
  have hpiv : pivotRows dfC3 ((0 : ℚ) + (2 - 0) / 2) =
      [⟨"a", 1, 0, -1⟩, ⟨"b", 0, 5, 5⟩, ⟨"c", 0, 5, 5⟩] := by
    rw [hcorte, pivotRows, hsort]
    simp [dfC3, ev, sumMinutos, List.filter_cons]
  have heval : (artistas_emergentes_y_olvidados dfC3 10).1.map (·.delta) = [5, 5, -1] := by
    simp only [artistas_emergentes_y_olvidados, hmin, hmax]
    rw [hpiv]
    decide
  rw [heval]
  intro hpw
  have h55 : (5 : ℚ) < 5 :=
    (List.pairwise_cons.mp hpw).1 5 (List.mem_cons_self _ _)
  exact absurd h55 (lt_irrefl 5)

theorem claim_C3_witness :
    ((⟨"a", 40, 0, -40⟩ : PivotRow).delta =
      -sumMinutos (dfUno.filter
        (fun e => e.artista = (⟨"a", 40, 0, -40⟩ : PivotRow).artista))) ∧
    ((artistas_emergentes_y_olvidados dfUno 10).1.map (·.delta)).Pairwise
      (fun x y => y ≤ x) ∧
    ((artistas_emergentes_y_olvidados dfUno 10).2.map (·.delta)).Pairwise
      (fun x y => x ≤ y) := by
  have hmin : (dfUno.map (·.fecha_reproduccion)).min? = some 0 := by decide
  have hmax : (dfUno.map (·.fecha_reproduccion)).max? = some 0 := by decide
  have hmem : (⟨"a", 40, 0, -40⟩ : PivotRow) ∈ pivotRows dfUno ((0 : ℚ) + (0 - 0) / 2) := by
    have hc : (0 : ℚ) + (0 - 0) / 2 = 0 := by norm_num
    rw [hc, pivotRows]
    simp [dfUno, ev, sumMinutos, List.filter_cons, List.insertionSort, List.orderedInsert]
  refine ⟨((claim_C3_emergentes dfUno 10 0 0 hmin hmax).1 _ hmem).2 ?_,
    (claim_C3_emergentes dfUno 10 0 0 hmin hmax).2.1,
    (claim_C3_emergentes dfUno 10 0 0 hmin hmax).2.2⟩
  intro e he _
  simp only [dfUno, List.mem_singleton] at he
  subst he
  norm_num [ev]

/-! Claim C6: daily variability on degenerate inputs. -/

theorem dedup_const {α : Type} [DecidableEq α] (l : List α) (d : α)
    (hne : l ≠ []) (hall : ∀ x ∈ l, x = d) : l.dedup = [d] := by
  induction l with
  | nil => cases hne rfl
  | cons a l ih =>
    have ha : a = d := hall a (List.mem_cons_self _ _)
    subst ha
    rcases l with _ | ⟨b, l'⟩
    · rfl
    · have hb : b = a := hall b (List.mem_cons_of_mem _ (List.mem_cons_self _ _))
      have hmem : a ∈ b :: l' := by
        rw [hb]
        exact List.mem_cons_self _ _
      rw [List.dedup_cons_of_mem hmem]
      exact ih (List.cons_ne_nil _ _) (fun x hx => hall x (List.mem_cons_of_mem _ hx))

theorem resumen_single (d : ℤ) (T : ℚ) (hT : 0 ≤ T) (df : EventTable)
    (hdiar : groupBySum fecha (· ≤ ·) df = [(d, T)]) :
    ∃ r, resumen_variabilidad_diaria df = some r ∧
      r.desviacion_estandar = 0 ∧ r.dias_altos = 0 ∧ r.dias_bajos = 0 := by
  rw [resumen_variabilidad_diaria, hdiar]
  refine ⟨_, rfl, ?_, ?_, ?_⟩
  · simp
  · rw [List.length_eq_zero, List.filter_eq_nil_iff]
    intro v hv
    simp only [List.map_cons, List.map_nil, List.sum_cons, List.sum_nil, List.length_cons,
      List.length_nil, List.mem_singleton] at hv ⊢
    subst hv
    simp only [add_zero, Nat.cast_one, div_one, zero_add, Nat.cast_ofNat, decide_eq_true_eq]
    intro habs
    nlinarith
  · rw [List.length_eq_zero, List.filter_eq_nil_iff]
    intro v hv
    simp only [List.map_cons, List.map_nil, List.sum_cons, List.sum_nil, List.length_cons,
      List.length_nil, List.mem_singleton] at hv ⊢
    subst hv
    simp only [add_zero, Nat.cast_one, div_one, zero_add, Nat.cast_ofNat, decide_eq_true_eq]
    intro habs
    nlinarith

/-- C6: `resumen_variabilidad_diaria` returns the empty/absent result on an
empty table rather than failing, and on a table whose events all fall on one
calendar day it reports standard deviation `0` (the source's substitute for the
undefined one-sample statistic) and zero high and zero low days. -/
theorem claim_C6_variabilidad (df : EventTable) :
    (df = [] → resumen_variabilidad_diaria df = none) ∧
    (∀ d : ℤ, df ≠ [] → (∀ e ∈ df, fecha e = d) →
      (∀ e ∈ df, 0 ≤ e.minutos_reproducidos) →
      ∃ r, resumen_variabilidad_diaria df = some r ∧
        r.desviacion_estandar = 0 ∧ r.dias_altos = 0 ∧ r.dias_bajos = 0) := by
  constructor
  · rintro rfl
    rfl
  · intro d hne hday hpos
    have hdedup : (df.map fecha).dedup = [d] := by
      refine dedup_const _ _ ?_ ?_
      · intro habs
        exact hne (List.map_eq_nil_iff.mp habs)
      · intro x hx
        rcases List.mem_map.mp hx with ⟨e, he, rfl⟩
        exact hday e he
    have hfil : df.filter (fun e => fecha e = d) = df := by
      rw [List.filter_eq_self]
      intro e he
      simp [hday e he]
    have hdiar : groupBySum fecha (· ≤ ·) df = [(d, sumMinutos df)] := by
      rw [groupBySum, hdedup]
      simp [List.insertionSort, List.orderedInsert, groupSum, hfil]
    exact resumen_single d _ (sumMinutos_nonneg hpos) df hdiar

theorem claim_C6_witness :
    resumen_variabilidad_diaria [] = none ∧
    (resumen_variabilidad_diaria dfUno).map (·.desviacion_estandar) = some 0 ∧
    (resumen_variabilidad_diaria dfUno).map (·.dias_altos) = some 0 ∧
    (resumen_variabilidad_diaria dfUno).map (·.dias_bajos) = some 0 := by
  obtain ⟨r, hr, h1, h2, h3⟩ :=
    (claim_C6_variabilidad dfUno).2 0 (by simp [dfUno])
      (by intro e he; simp only [dfUno, List.mem_singleton] at he; subst he; simp [fecha, ev])
      (by intro e he; simp only [dfUno, List.mem_singleton] at he; subst he; norm_num [ev])
  exact ⟨(claim_C6_variabilidad []).1 rfl, by rw [hr]; simp [h1], by rw [hr]; simp [h2],
    by rw [hr]; simp [h3]⟩

/-! Claim C10: the busiest-day selection. -/

theorem foldl_max_spec (l : List (ℤ × ℚ)) (r0 : ℤ × ℚ)
    (hsorted : (r0 :: l).Pairwise (fun a b => a.1 < b.1)) :
    (l.foldl (fun b x => if b.2 < x.2 then x else b) r0) ∈ r0 :: l ∧
    (∀ x ∈ r0 :: l, x.2 ≤ (l.foldl (fun b x => if b.2 < x.2 then x else b) r0).2) ∧
    ((l.foldl (fun b x => if b.2 < x.2 then x else b) r0) = r0 ∨
      r0.2 < (l.foldl (fun b x => if b.2 < x.2 then x else b) r0).2) ∧
    (∀ x ∈ r0 :: l, x.2 = (l.foldl (fun b x => if b.2 < x.2 then x else b) r0).2 →
      (l.foldl (fun b x => if b.2 < x.2 then x else b) r0).1 ≤ x.1) := by
  induction l generalizing r0 with
  | nil =>
    refine ⟨List.mem_cons_self _ _, ?_, Or.inl rfl, ?_⟩
    · intro x hx
      rw [List.mem_singleton.mp hx]
      exact le_refl _
    · intro x hx _
      rw [List.mem_singleton.mp hx]
      exact le_refl _
  | cons y l ih =>
    rcases List.pairwise_cons.mp hsorted with ⟨hr0, htail⟩
    by_cases hlt : r0.2 < y.2
    · have hstep : (y :: l).foldl (fun b x => if b.2 < x.2 then x else b) r0 =
          l.foldl (fun b x => if b.2 < x.2 then x else b) y := by
        simp [List.foldl_cons, if_pos hlt]
      obtain ⟨m1, m2, m3, m4⟩ := ih y htail
      rw [hstep]
      refine ⟨List.mem_cons_of_mem _ m1, ?_, ?_, ?_⟩
      · intro x hx
        rcases List.mem_cons.mp hx with rfl | hx'
        · exact le_of_lt (lt_of_lt_of_le hlt (m2 y (List.mem_cons_self _ _)))
        · exact m2 x hx'
      · right
        exact lt_of_lt_of_le hlt (m2 y (List.mem_cons_self _ _))
      · intro x hx hxe
        rcases List.mem_cons.mp hx with rfl | hx'
        · exfalso
          have hlt2 : x.2 < (l.foldl (fun b x => if b.2 < x.2 then x else b) y).2 :=
            lt_of_lt_of_le hlt (m2 y (List.mem_cons_self _ _))
          rw [hxe] at hlt2
          exact lt_irrefl _ hlt2
        · exact m4 x hx' hxe
    · have hstep : (y :: l).foldl (fun b x => if b.2 < x.2 then x else b) r0 =
          l.foldl (fun b x => if b.2 < x.2 then x else b) r0 := by
        simp [List.foldl_cons, if_neg hlt]
      have hsorted' : (r0 :: l).Pairwise (fun a b => a.1 < b.1) :=
        List.Pairwise.sublist ((List.sublist_cons_self y l).cons₂ r0) hsorted
      obtain ⟨m1, m2, m3, m4⟩ := ih r0 hsorted'
      rw [hstep]
      have hy : y.2 ≤ r0.2 := le_of_not_lt hlt
      refine ⟨?_, ?_, m3, ?_⟩
      · rcases List.mem_cons.mp m1 with h | h
        · rw [h]
          exact List.mem_cons_self _ _
        · exact List.mem_cons_of_mem _ (List.mem_cons_of_mem _ h)
      · intro x hx
        rcases List.mem_cons.mp hx with rfl | hx'
        · exact m2 x (List.mem_cons_self _ _)
        · rcases List.mem_cons.mp hx' with rfl | hx''
          · exact le_trans hy (m2 r0 (List.mem_cons_self _ _))
          · exact m2 x (List.mem_cons_of_mem _ hx'')
      · intro x hx hxe
        rcases List.mem_cons.mp hx with rfl | hx'
        · exact m4 x (List.mem_cons_self _ _) hxe
        · rcases List.mem_cons.mp hx' with rfl | hx''
          · rcases m3 with hb | hb
            · rw [hb]
              exact le_of_lt (hr0 x (List.mem_cons_self _ _))
            · exfalso
              have h1 : r0.2 < x.2 := hxe ▸ hb
              exact absurd (lt_of_lt_of_le h1 hy) (lt_irrefl _)
          · exact m4 x (List.mem_cons_of_mem _ hx'') hxe

/-- C10: on a non-empty table, `dia_mas_musical` returns a row whose date is the
earliest among the dates tied for the maximum daily total (the daily rollup is
keyed by date in ascending order and `idxmax` keeps the first maximum), whose
`minutos` is that day's total, and whose top artist is an artist playing that day
attaining the maximum artist total of that day. -/
theorem claim_C10_dia_mas_musical (df : EventTable) (hne : df ≠ []) :
    ∃ r0 : DiaMasMusical, dia_mas_musical df = some r0 ∧
      r0.fechaTop ∈ df.map fecha ∧
      r0.minutos = groupSum fecha df r0.fechaTop ∧
      (∀ d ∈ df.map fecha, groupSum fecha df d ≤ r0.minutos) ∧
      (∀ d ∈ df.map fecha, groupSum fecha df d = r0.minutos → r0.fechaTop ≤ d) ∧
      r0.top_artista ∈ (df.filter (fun e => fecha e = r0.fechaTop)).map (·.artista) ∧
      r0.minutos_top_artista =
        groupSum (·.artista) (df.filter (fun e => fecha e = r0.fechaTop)) r0.top_artista ∧
      (∀ x ∈ (df.filter (fun e => fecha e = r0.fechaTop)).map (·.artista),
        groupSum (·.artista) (df.filter (fun e => fecha e = r0.fechaTop)) x ≤
          r0.minutos_top_artista) := by
  classical
  -- the daily rollup is non-empty
  have hlen : (groupBySum fecha (· ≤ ·) df).length = (df.map fecha).dedup.length := by
    rw [groupBySum, List.length_map, (List.perm_insertionSort _ _).length_eq]
  have hkeys : groupBySum fecha (· ≤ ·) df ≠ [] := by
    intro h
    rw [h] at hlen
    have h2 : (df.map fecha).dedup = [] := List.length_eq_zero.mp hlen.symm
    rw [List.dedup_eq_nil, List.map_eq_nil_iff] at h2
    exact hne h2
  obtain ⟨r, rs, hrs⟩ : ∃ r rs, groupBySum fecha (· ≤ ·) df = r :: rs := by
    cases h : groupBySum fecha (· ≤ ·) df with
    | nil => exact absurd h hkeys
    | cons a b => exact ⟨a, b, rfl⟩
  have hsorted : (r :: rs).Pairwise (fun a b : ℤ × ℚ => a.1 < b.1) := by
    rw [← hrs]
    exact groupBySum_pairwise_keys fecha df
  obtain ⟨m1, m2, _, m4⟩ := foldl_max_spec rs r hsorted
  set ft := rs.foldl (fun b x => if b.2 < x.2 then x else b) r with hft
  have hft_mem : ft ∈ groupBySum fecha (· ≤ ·) df := by
    rw [hrs]
    exact m1
  have hft_key : ft.1 ∈ (df.map fecha).dedup ∧ ft.2 = groupSum fecha df ft.1 :=
    mem_groupBySum hft_mem
  -- that day has at least one event, hence a top artist
  obtain ⟨e0, he0, he0d⟩ : ∃ e0, e0 ∈ df ∧ fecha e0 = ft.1 := by
    rcases List.mem_map.mp (List.mem_dedup.mp hft_key.1) with ⟨e0, he0, hfe⟩
    exact ⟨e0, he0, hfe⟩
  have he0en : e0 ∈ df.filter (fun e => fecha e = ft.1) :=
    List.mem_filter.mpr ⟨he0, by simp [he0d]⟩
  obtain ⟨a, as', hta⟩ : ∃ a as',
      List.insertionSort valGe
        (groupBySum (·.artista) strLe (df.filter (fun e => fecha e = ft.1))) = a :: as' := by
    cases h : List.insertionSort valGe
        (groupBySum (·.artista) strLe (df.filter (fun e => fecha e = ft.1))) with
    | nil =>
      exfalso
      have hplen : (groupBySum (·.artista) strLe (df.filter (fun e => fecha e = ft.1))).length
          = 0 := by
        rw [← (List.perm_insertionSort valGe _).length_eq, h]
        rfl
      have hgnil : groupBySum (·.artista) strLe (df.filter (fun e => fecha e = ft.1)) = [] :=
        List.length_eq_zero.mp hplen
      have hdl : ((df.filter (fun e => fecha e = ft.1)).map (·.artista)).dedup = [] := by
        have := congrArg List.length hgnil
        rw [groupBySum, List.length_map, (List.perm_insertionSort _ _).length_eq] at this
        exact List.length_eq_zero.mp this
      rw [List.dedup_eq_nil, List.map_eq_nil_iff] at hdl
      rw [hdl] at he0en
      cases he0en
    | cons a b => exact ⟨a, b, rfl⟩
  have htake : top_artistas (df.filter (fun e => fecha e = ft.1)) 1 = [a] := by
    rw [top_artistas, hta]
    rfl
  have ha_mem : a ∈ groupBySum (·.artista) strLe (df.filter (fun e => fecha e = ft.1)) := by
    have : a ∈ a :: as' := List.mem_cons_self _ _
    rw [← hta] at this
    exact (List.perm_insertionSort valGe _).mem_iff.mp this
  have ha_key := mem_groupBySum ha_mem
  have ha_sorted : (a :: as').Pairwise valGe := by
    rw [← hta]
    exact List.sorted_insertionSort valGe _
  have heval : dia_mas_musical df = some ⟨ft.1, ft.2, a.1, a.2⟩ := by
    rw [dia_mas_musical, hrs]
    simp only [← hft]
    rw [htake]
  refine ⟨⟨ft.1, ft.2, a.1, a.2⟩, heval, List.mem_dedup.mp hft_key.1, hft_key.2, ?_, ?_,
    ?_, ha_key.2, ?_⟩
  · intro d hd
    have hpair : (d, groupSum fecha df d) ∈ groupBySum fecha (· ≤ ·) df :=
      mem_groupBySum_of_key _ (List.mem_dedup.mpr hd)
    rw [hrs] at hpair
    exact m2 _ hpair
  · intro d hd hsum
    have hpair : (d, groupSum fecha df d) ∈ groupBySum fecha (· ≤ ·) df :=
      mem_groupBySum_of_key _ (List.mem_dedup.mpr hd)
    rw [hrs] at hpair
    exact m4 _ hpair hsum
  · exact List.mem_dedup.mp ha_key.1
  · intro x hx
    have hpair : (x, groupSum (·.artista) (df.filter (fun e => fecha e = ft.1)) x) ∈
        groupBySum (·.artista) strLe (df.filter (fun e => fecha e = ft.1)) :=
      mem_groupBySum_of_key _ (List.mem_dedup.mpr hx)
    have hmem2 : (x, groupSum (·.artista) (df.filter (fun e => fecha e = ft.1)) x) ∈
        a :: as' := by
      rw [← hta]
      exact (List.perm_insertionSort valGe _).mem_iff.mpr hpair
    rcases List.mem_cons.mp hmem2 with heq | htl
    · rw [← heq]
    · exact List.rel_of_pairwise_cons ha_sorted htl

theorem claim_C10_witness : (dia_mas_musical dfUno).isSome = true := by
  obtain ⟨r0, hr0, -⟩ := claim_C10_dia_mas_musical dfUno (by simp [dfUno])
  rw [hr0]
  rfl

/-! Claim C1: the longest-streak scan.

The scan works over `fechas`, the qualifying dates sorted ascending. Runs are
described positionally: `gD fs j` is the date at index `j`, `StepOne fs j` says
the gap between indices `j` and `j + 1` is exactly one calendar day, and
`IsRun fs a L` says indices `[a, a + L)` form a maximal block of consecutive
days (one-day steps inside, a break or a list end on both sides). -/

/-- Date at index `j` of the qualifying-date list (`fechas.iloc[j]`). -/
def gD (fs : List ℤ) (j : ℕ) : ℤ :=
  fs.getD j 0

/-- The gap between the dates at indices `j` and `j + 1` is exactly one day. -/
def StepOne (fs : List ℤ) (j : ℕ) : Prop :=
  gD fs (j + 1) = gD fs j + 1

/-- Indices `[a, a + L)` form a maximal run of consecutive days in `fs`. -/
structure IsRun (fs : List ℤ) (a L : ℕ) : Prop where
  one_le : 1 ≤ L
  add_le : a + L ≤ fs.length
  steps : ∀ j, a ≤ j → j + 1 < a + L → StepOne fs j
  head_gap : a = 0 ∨ ¬ StepOne fs (a - 1)
  last_gap : a + L = fs.length ∨ ¬ StepOne fs (a + L - 1)

/-- Indices `[a, a + L)` form a maximal run that is closed by a break (not by
the end of the list): the scan has already compared it against the best. -/
structure ClosedRun (fs : List ℤ) (a L : ℕ) : Prop where
  one_le : 1 ≤ L
  add_lt : a + L < fs.length
  steps : ∀ j, a ≤ j → j + 1 < a + L → StepOne fs j
  head_gap : a = 0 ∨ ¬ StepOne fs (a - 1)
  last_gap : ¬ StepOne fs (a + L - 1)

/-- Invariant of the scan before processing index `i`: the current run covers
indices `[st, i)` and has length `C`; the best-so-far block `[bs, bs + M)` is a
closed run lying before the current one (or the initial placeholder when no
break has happened yet), and it is the first-seen longest among all closed runs
that lie before the current run. -/
structure ScanInv (fs : List ℤ) (i M C st bs : ℕ) : Prop where
  one_le_C : 1 ≤ C
  st_add : st + C = i
  i_le : i ≤ fs.length
  curr_steps : ∀ j, st ≤ j → j + 1 < i → StepOne fs j
  curr_head : st = 0 ∨ ¬ StepOne fs (st - 1)
  one_le_M : 1 ≤ M
  best_ok : (ClosedRun fs bs M ∧ bs + M ≤ st) ∨ (bs = 0 ∧ st = 0 ∧ M = 1)
  best_max : ∀ a L, ClosedRun fs a L → a + L ≤ st → L ≤ M ∧ (L = M → bs ≤ a)

/-- A closed run overlapping the current block `[st, i)` must be exactly the
current block. -/
theorem closed_run_in_curr (fs : List ℤ) (i C st : ℕ)
    (hstC : st + C = i)
    (hsteps : ∀ j, st ≤ j → j + 1 < i → StepOne fs j)
    (hhead : st = 0 ∨ ¬ StepOne fs (st - 1))
    (a L : ℕ) (hcr : ClosedRun fs a L)
    (hgt : st < a + L) (hle : a + L ≤ i) :
    a = st ∧ L = C := by
  have hL1 : 1 ≤ L := hcr.one_le
  rcases lt_trichotomy a st with hlt | heq | hgt'
  · exfalso
    have hst1 : StepOne fs (st - 1) := by
      refine hcr.steps _ ?_ ?_ <;> omega
    rcases hhead with h0 | hns
    · omega
    · exact hns hst1
  · subst heq
    refine ⟨rfl, ?_⟩
    by_cases hlt2 : a + L < i
    · exfalso
      have hst : StepOne fs (a + L - 1) := by
        refine hsteps _ ?_ ?_ <;> omega
      exact hcr.last_gap hst
    · omega
  · exfalso
    have hst : StepOne fs (a - 1) := by
      refine hsteps _ ?_ ?_ <;> omega
    rcases hcr.head_gap with h0 | hns
    · omega
    · exact hns hst

/-- Once the whole list has been scanned (the current run reaches the end),
every maximal run is either the current run or a closed run lying before it. -/
theorem isRun_cases (fs : List ℤ) (C st : ℕ)
    (hstC : st + C = fs.length)
    (h1C : 1 ≤ C)
    (hsteps : ∀ j, st ≤ j → j + 1 < fs.length → StepOne fs j)
    (hhead : st = 0 ∨ ¬ StepOne fs (st - 1))
    (a L : ℕ) (hrun : IsRun fs a L) :
    (a = st ∧ L = C) ∨ (ClosedRun fs a L ∧ a + L ≤ st) := by
  have hL1 : 1 ≤ L := hrun.one_le
  by_cases hend : a + L = fs.length
  · left
    rcases lt_trichotomy a st with hlt | heq | hgt'
    · exfalso
      have hst1 : StepOne fs (st - 1) := by
        refine hrun.steps _ ?_ ?_ <;> omega
      rcases hhead with h0 | hns
      · omega
      · exact hns hst1
    · subst heq
      exact ⟨rfl, by omega⟩
    · exfalso
      have hst : StepOne fs (a - 1) := by
        refine hsteps _ ?_ ?_ <;> omega
      rcases hrun.head_gap with h0 | hns
      · omega
      · exact hns hst
  · have hlt : a + L < fs.length := lt_of_le_of_ne hrun.add_le hend
    have hgap : ¬ StepOne fs (a + L - 1) := hrun.last_gap.resolve_left hend
    have hcr : ClosedRun fs a L := ⟨hL1, hlt, hrun.steps, hrun.head_gap, hgap⟩
    by_cases hle : a + L ≤ st
    · right
      exact ⟨hcr, hle⟩
    · left
      exact closed_run_in_curr fs fs.length C st hstC hsteps hhead a L hcr (by omega)
        hrun.add_le

/-- Inside a run, the date at offset `k` is the start date plus `k` days. -/
theorem isRun_dates (fs : List ℤ) (a L : ℕ) (h : IsRun fs a L) :
    ∀ k, k < L → gD fs (a + k) = gD fs a + k := by
  intro k
  induction k with
  | zero =>
    intro _
    simp
  | succ k ihk =>
    intro hk
    have h1 : StepOne fs (a + k) := h.steps (a + k) (by omega) (by omega)
    have h2 := ihk (by omega)
    unfold StepOne at h1
    have h3 : a + (k + 1) = a + k + 1 := by omega
    rw [h3, h1, h2]
    push_cast
    ring

/-- Correctness of the scan: started anywhere with a valid invariant, the loop
returns a maximal run together with its start index, and that run is at least
as long as every maximal run, strictly preferring the earliest on ties. -/
theorem rachaLoop_spec (fs : List ℤ) (rest : List ℤ) :
    ∀ (prev : ℤ) (i M C st bs : ℕ), rest = fs.drop i → 1 ≤ i → prev = gD fs (i - 1) →
      ScanInv fs i M C st bs →
      IsRun fs (rachaLoop rest prev i M C st bs).2 (rachaLoop rest prev i M C st bs).1 ∧
      (∀ a L, IsRun fs a L → L ≤ (rachaLoop rest prev i M C st bs).1 ∧
        (L = (rachaLoop rest prev i M C st bs).1 → (rachaLoop rest prev i M C st bs).2 ≤ a)) := by
  induction rest with
  | nil =>
    intro prev i M C st bs hdrop hi hprev inv
    have hstC := inv.st_add
    have hC1 := inv.one_le_C
    have hM1 := inv.one_le_M
    have hieq : i = fs.length := le_antisymm inv.i_le (List.drop_eq_nil_iff.mp hdrop.symm)
    have hcurr_run : IsRun fs st C :=
      ⟨hC1, by omega, fun j hj hj2 => inv.curr_steps j hj (by omega), inv.curr_head,
        Or.inl (by omega)⟩
    have hcases : ∀ a L, IsRun fs a L →
        (a = st ∧ L = C) ∨ (ClosedRun fs a L ∧ a + L ≤ st) :=
      fun a L hr =>
        isRun_cases fs C st (by omega) hC1
          (fun j hj hj2 => inv.curr_steps j hj (by omega)) inv.curr_head a L hr
    by_cases hMC : M < C
    · have hres : rachaLoop [] prev i M C st bs = (C, st) := by
        simp [rachaLoop, hMC]
      rw [hres]
      refine ⟨hcurr_run, ?_⟩
      intro a L hr
      rcases hcases a L hr with ⟨ha, hL⟩ | ⟨hcr, hle⟩
      · subst ha
        subst hL
        exact ⟨le_refl _, fun _ => le_refl _⟩
      · have h2 := inv.best_max a L hcr hle
        constructor
        · omega
        · intro hLC
          omega
    · have hres : rachaLoop [] prev i M C st bs = (M, bs) := by
        simp [rachaLoop, hMC]
      rw [hres]
      have hbest_run : IsRun fs bs M := by
        rcases inv.best_ok with ⟨hcr, hle⟩ | ⟨hbs0, hst0, hMdeg⟩
        · exact ⟨hcr.one_le, le_of_lt hcr.add_lt, hcr.steps, hcr.head_gap,
            Or.inr hcr.last_gap⟩
        · subst hbs0
          refine ⟨by omega, by omega, ?_, Or.inl rfl, Or.inl (by omega)⟩
          intro j hj hj2
          exact absurd hj2 (by omega)
      refine ⟨hbest_run, ?_⟩
      intro a L hr
      rcases hcases a L hr with ⟨ha, hL⟩ | ⟨hcr, hle⟩
      · subst ha
        subst hL
        constructor
        · omega
        · intro hLM
          rcases inv.best_ok with ⟨_, hle2⟩ | ⟨hbs0, _, _⟩ <;> omega
      · exact inv.best_max a L hcr hle
  | cons d rest' ih =>
    intro prev i M C st bs hdrop hi hprev inv
    have hstC := inv.st_add
    have hC1 := inv.one_le_C
    have hM1 := inv.one_le_M
    have hi_lt : i < fs.length := by
      by_contra hcon
      push_neg at hcon
      rw [List.drop_eq_nil_of_le hcon] at hdrop
      exact absurd hdrop (List.cons_ne_nil d rest')
    have hd : gD fs i = d := by
      have h1 : (fs.drop i)[0]? = some d := by
        rw [← hdrop]
        simp
      rw [List.getElem?_drop] at h1
      unfold gD
      rw [List.getD_eq_getElem?_getD]
      have h2 : i + 0 = i := by omega
      rw [h2] at h1
      rw [h1]
      rfl
    have hrest : rest' = fs.drop (i + 1) := by
      have h1 : (fs.drop i).tail = fs.drop (i + 1) := List.tail_drop fs i
      rw [← hdrop] at h1
      exact h1
    have hidx : i - 1 + 1 = i := by omega
    by_cases hstep : d - prev = 1
    · have hso : StepOne fs (i - 1) := by
        unfold StepOne
        rw [hidx, hd, ← hprev]
        omega
      have hres : rachaLoop (d :: rest') prev i M C st bs =
          rachaLoop rest' d (i + 1) M (C + 1) st bs := by
        simp [rachaLoop, hstep]
      rw [hres]
      refine ih d (i + 1) M (C + 1) st bs hrest (by omega)
        (by rw [Nat.add_sub_cancel]; exact hd.symm) ?_
      exact {
        one_le_C := by omega
        st_add := by omega
        i_le := by omega
        curr_steps := by
          intro j hj hj2
          by_cases hj3 : j + 1 < i
          · exact inv.curr_steps j hj hj3
          · have hje : j = i - 1 := by omega
            rw [hje]
            exact hso
        curr_head := inv.curr_head
        one_le_M := hM1
        best_ok := inv.best_ok
        best_max := inv.best_max }
    · have hnso : ¬ StepOne fs (i - 1) := by
        intro hcon
        unfold StepOne at hcon
        rw [hidx, hd, ← hprev] at hcon
        omega
      have hclosed : ClosedRun fs st C :=
        ⟨hC1, by omega, fun j hj hj2 => inv.curr_steps j hj (by omega), inv.curr_head, by
          have h1 : st + C - 1 = i - 1 := by omega
          rw [h1]
          exact hnso⟩
      have hnew : ∀ a L, ClosedRun fs a L → a + L ≤ i → ¬ (a + L ≤ st) → a = st ∧ L = C :=
        fun a L hcr hle hnle =>
          closed_run_in_curr fs i C st hstC
            (fun j hj hj2 => inv.curr_steps j hj hj2) inv.curr_head a L hcr
            (by omega) hle
      by_cases hMC : M < C
      · have hres : rachaLoop (d :: rest') prev i M C st bs =
            rachaLoop rest' d (i + 1) C 1 i st := by
          simp [rachaLoop, hstep, hMC]
        rw [hres]
        refine ih d (i + 1) C 1 i st hrest (by omega)
          (by rw [Nat.add_sub_cancel]; exact hd.symm) ?_
        exact {
          one_le_C := le_refl 1
          st_add := rfl
          i_le := by omega
          curr_steps := by
            intro j hj hj2
            exact absurd hj2 (by omega)
          curr_head := Or.inr hnso
          one_le_M := hC1
          best_ok := Or.inl ⟨hclosed, by omega⟩
          best_max := by
            intro a L hcr hle
            by_cases hs : a + L ≤ st
            · have h2 := inv.best_max a L hcr hs
              constructor
              · omega
              · intro hLC
                omega
            · obtain ⟨ha, hL⟩ := hnew a L hcr hle hs
              subst ha
              subst hL
              exact ⟨le_refl _, fun _ => le_refl _⟩ }
      · have hres : rachaLoop (d :: rest') prev i M C st bs =
            rachaLoop rest' d (i + 1) M 1 i bs := by
          simp [rachaLoop, hstep, hMC]
        rw [hres]
        refine ih d (i + 1) M 1 i bs hrest (by omega)
          (by rw [Nat.add_sub_cancel]; exact hd.symm) ?_
        have hbest' : ClosedRun fs bs M ∧ bs + M ≤ i := by
          rcases inv.best_ok with ⟨hcr, hle⟩ | ⟨hbs0, hst0, hMdeg⟩
          · exact ⟨hcr, by omega⟩
          · subst hbs0
            refine ⟨⟨by omega, by omega, ?_, Or.inl rfl, ?_⟩, by omega⟩
            · intro j hj hj2
              exact absurd hj2 (by omega)
            · have h1 : (0 : ℕ) + M - 1 = i - 1 := by omega
              rw [h1]
              exact hnso
        exact {
          one_le_C := le_refl 1
          st_add := rfl
          i_le := by omega
          curr_steps := by
            intro j hj hj2
            exact absurd hj2 (by omega)
          curr_head := Or.inr hnso
          one_le_M := hM1
          best_ok := Or.inl hbest'
          best_max := by
            intro a L hcr hle
            by_cases hs : a + L ≤ st
            · exact inv.best_max a L hcr hs
            · obtain ⟨ha, hL⟩ := hnew a L hcr hle hs
              constructor
              · omega
              · intro hLM
                rcases inv.best_ok with ⟨_, hle2⟩ | ⟨hbs0, _, _⟩ <;> omega }

theorem gD_eq_getElem (fs : List ℤ) (j : ℕ) (hj : j < fs.length) : gD fs j = fs[j] := by
  unfold gD
  rw [List.getD_eq_getElem?_getD, List.getElem?_eq_getElem hj]
  rfl

/-- Concrete streak table: qualifying days are the day numbers 0, 1, 2 and 4
(2024-01-01, 01-02, 01-03 and 01-05 as days since 2024-01-01), each day holding
a single 12-minute play, so every day meets the threshold 10. -/
def dfStreak : EventTable :=
  [ev "a" 12 0 13 "Monday", ev "a" 12 1 13 "Monday",
   ev "a" 12 2 13 "Monday", ev "a" 12 4 13 "Monday"]

/-- Qualifying rows of `dfStreak` at threshold 10: all four days. -/
theorem dfStreak_activos :
    (groupBySum fecha (· ≤ ·) dfStreak).filter (fun r => (10 : ℚ) ≤ r.2) =
      [((0 : ℤ), (12 : ℚ)), (1, 12), (2, 12), (4, 12)] := by
  have hkeys : List.insertionSort (· ≤ ·) ((dfStreak.map fecha).dedup) =
      [(0 : ℤ), 1, 2, 4] := by
    decide
  have hdi : groupBySum fecha (· ≤ ·) dfStreak =
      [((0 : ℤ), (12 : ℚ)), (1, 12), (2, 12), (4, 12)] := by
    rw [groupBySum, hkeys]
    simp [groupSum, sumMinutos, dfStreak, ev, fecha, List.filter_cons]
  rw [hdi]
  norm_num [List.filter_cons]

/-- C1: for every table and threshold, with `fechas` the qualifying dates in
ascending order, (i) a date qualifies exactly when its daily total meets the
threshold, (ii) successive qualifying dates strictly increase, and (iii) the
returned streak is a maximal block of one-day steps `[bs, bs + L)` — broken by
any larger gap — whose start and end dates are reported, and every maximal block
is at most as long, with the earliest block winning ties. In particular, on the
table whose qualifying days are exactly {0, 1, 2, 4} (2024-01-01 .. 01-05 with
01-04 missing) the result is length 3 from day 0 to day 2. -/
theorem claim_C1_racha :
    (∀ (df : EventTable) (u : ℚ) (activos : List (ℤ × ℚ)) (fechas : List ℤ),
      activos = (groupBySum fecha (· ≤ ·) df).filter (fun r => u ≤ r.2) →
      fechas = activos.map Prod.fst →
      activos ≠ [] →
      (∀ d : ℤ, d ∈ fechas ↔ d ∈ (df.map fecha).dedup ∧ u ≤ groupSum fecha df d) ∧
      (∀ j, j + 1 < fechas.length → gD fechas j < gD fechas (j + 1)) ∧
      (∃ bs, IsRun fechas bs (racha_musical_mas_larga df u).longitud_racha ∧
        (racha_musical_mas_larga df u).fecha_inicio = some (gD fechas bs) ∧
        (racha_musical_mas_larga df u).fecha_fin =
          some (gD fechas bs + ((racha_musical_mas_larga df u).longitud_racha : ℤ) - 1) ∧
        (∀ a L, IsRun fechas a L → L ≤ (racha_musical_mas_larga df u).longitud_racha ∧
          (L = (racha_musical_mas_larga df u).longitud_racha → bs ≤ a)))) ∧
    racha_musical_mas_larga dfStreak 10 = ⟨3, some 0, some 2⟩ := by
  constructor
  · intro df u activos fechas hact hfech hne
    obtain ⟨a0, resto, hcons⟩ : ∃ a0 resto, activos = a0 :: resto := by
      cases h : activos with
      | nil => exact absurd h hne
      | cons x y => exact ⟨x, y, rfl⟩
    have hfech2 : fechas = (a0 :: resto).map Prod.fst := by
      rw [hfech, hcons]
    have hq1 : ∀ d : ℤ, d ∈ fechas ↔ d ∈ (df.map fecha).dedup ∧ u ≤ groupSum fecha df d := by
      intro d
      constructor
      · intro hd
        rw [hfech] at hd
        rcases List.mem_map.mp hd with ⟨p, hp, rfl⟩
        rw [hact] at hp
        rcases List.mem_filter.mp hp with ⟨hp1, hp2⟩
        have h3 := mem_groupBySum hp1
        refine ⟨h3.1, ?_⟩
        rw [← h3.2]
        exact of_decide_eq_true hp2
      · rintro ⟨hd1, hd2⟩
        rw [hfech, hact]
        refine List.mem_map.mpr ⟨(d, groupSum fecha df d), ?_, rfl⟩
        exact List.mem_filter.mpr ⟨mem_groupBySum_of_key _ hd1, decide_eq_true hd2⟩
    have hq2pw : fechas.Pairwise (· < ·) := by
      rw [hfech, hact]
      have h1 : (groupBySum fecha (· ≤ ·) df).Pairwise (fun a b => a.1 < b.1) :=
        groupBySum_pairwise_keys fecha df
      have h2 : ((groupBySum fecha (· ≤ ·) df).filter
          (fun r => decide (u ≤ r.2))).Pairwise (fun a b => a.1 < b.1) :=
        List.Pairwise.sublist (List.filter_sublist _) h1
      rw [List.pairwise_map]
      exact h2
    have hq2 : ∀ j, j + 1 < fechas.length → gD fechas j < gD fechas (j + 1) := by
      intro j hj
      have h1 := List.pairwise_iff_getElem.mp hq2pw j (j + 1) (by omega) hj (by omega)
      rw [gD_eq_getElem fechas j (by omega), gD_eq_getElem fechas (j + 1) hj]
      exact h1
    have hlen : 1 ≤ fechas.length := by
      rw [hfech2]
      simp
    have hinv : ScanInv fechas 1 1 1 0 0 := {
      one_le_C := le_refl 1
      st_add := rfl
      i_le := hlen
      curr_steps := fun _ _ hj2 => absurd hj2 (by omega)
      curr_head := Or.inl rfl
      one_le_M := le_refl 1
      best_ok := Or.inr ⟨rfl, rfl, rfl⟩
      best_max := fun a L hcr hle => absurd hle (by have := hcr.one_le; omega) }
    obtain ⟨hrun, hmax⟩ :=
      rachaLoop_spec fechas (fechas.drop 1) (fechas.getD 0 0) 1 1 1 0 0 rfl
        (le_refl 1) rfl hinv
    set mb := rachaLoop (fechas.drop 1) (fechas.getD 0 0) 1 1 1 0 0 with hmb
    have hlon : racha_musical_mas_larga df u =
        ⟨mb.1, some (fechas.getD mb.2 0), some (fechas.getD (mb.2 + mb.1 - 1) 0)⟩ := by
      rw [racha_musical_mas_larga, ← hact, hcons]
      simp only [← hfech2]
    refine ⟨hq1, hq2, mb.2, ?_, ?_, ?_, ?_⟩
    · rw [hlon]
      exact hrun
    · rw [hlon]
      rfl
    · rw [hlon]
      have hL1 : 1 ≤ mb.1 := hrun.one_le
      have h1 : mb.2 + mb.1 - 1 = mb.2 + (mb.1 - 1) := by omega
      have h2 := isRun_dates fechas mb.2 mb.1 hrun (mb.1 - 1) (by omega)
      show some (gD fechas (mb.2 + mb.1 - 1)) = some (gD fechas mb.2 + (mb.1 : ℤ) - 1)
      rw [h1, h2]
      congr 1
      push_cast [hL1]
      ring
    · intro a L hr
      rw [hlon]
      exact hmax a L hr
  · rw [racha_musical_mas_larga, dfStreak_activos]
    decide

theorem claim_C1_witness :
    racha_musical_mas_larga dfStreak 10 = ⟨3, some 0, some 2⟩ ∧
    gD [(0 : ℤ), 1, 2, 4] 0 < gD [(0 : ℤ), 1, 2, 4] 1 := by
  refine ⟨claim_C1_racha.2, ?_⟩
  exact (claim_C1_racha.1 dfStreak 10 [((0 : ℤ), (12 : ℚ)), (1, 12), (2, 12), (4, 12)]
    [(0 : ℤ), 1, 2, 4] dfStreak_activos.symm (by decide) (by decide)).2.1 0 (by decide)

end AnaliticaSpotify
